import Mathlib

/-!
Shallow embedding of the fsyo-raffle ticket application (TypeScript/React),
covering the ticket transfer codec (`src/utils/ticketTransfer.ts`), the QR
export capacity guard (`QRExport.tsx`), the QR import scan loop
(`QRImport.tsx`), the OCR post-processing and worker management
(`hooks/useOCR.ts`), and the scanner colour classifier, coordinate mapper
and capture state machine (`Scanner.tsx`).

JavaScript strings are modelled as Lean `String`; the JS operations
`split`, `join`, `slice(-1)` and `slice(0,-1)` are given direct recursive
definitions matching JS semantics. JS numbers appearing in geometric
computations are modelled as rationals (the spec idealises float rounding:
rounding happens only at the final `Math.round` step, modelled by `jsRound`).
-/

/-- The eight raffle colours, in the enumeration order of `COLOURS` in
`src/types.ts`. -/
inductive Colour where
  | Red
  | Blue
  | Green
  | Yellow
  | Orange
  | Purple
  | Pink
  | White
deriving DecidableEq, Repr

/-- `COLOURS` from `src/types.ts`: the enumeration order used by the colour
classifier loop. -/
def COLOURS : List Colour :=
  [.Red, .Blue, .Green, .Yellow, .Orange, .Purple, .Pink, .White]

/-- `RaffleTicket` from `src/types.ts` (`id: number` is a nonnegative
timestamp-derived integer, modelled as `ℕ`). -/
structure RaffleTicket where
  id : ℕ
  number : String
  colour : Colour
deriving DecidableEq, Repr

/-- `COLOUR_TO_CHAR` from `ticketTransfer.ts`. -/
def colourToChar : Colour → String
  | .Red => "R"
  | .Blue => "B"
  | .Green => "G"
  | .Yellow => "Y"
  | .Orange => "O"
  | .Purple => "P"
  | .Pink => "K"
  | .White => "W"

/-- `CHAR_TO_COLOUR` from `ticketTransfer.ts`; `none` models a failed
record lookup (JS `undefined`). -/
def charToColour : String → Option Colour
  | "R" => some .Red
  | "B" => some .Blue
  | "G" => some .Green
  | "Y" => some .Yellow
  | "O" => some .Orange
  | "P" => some .Purple
  | "K" => some .Pink
  | "W" => some .White
  | _ => none

/-- JS `String.prototype.split` with a single-character separator, on the
character list: always returns at least one chunk; `""` splits to `[""]`. -/
def splitChar (sep : Char) : List Char → List (List Char)
  | [] => [[]]
  | c :: rest =>
    if c = sep then [] :: splitChar sep rest
    else
      match splitChar sep rest with
      | [] => [[c]]
      | g :: gs => (c :: g) :: gs

/-- JS `data.split(sep)` on Lean strings. -/
def jsSplit (sep : Char) (s : String) : List String :=
  (splitChar sep s.toList).map String.mk

/-- JS `Array.prototype.join` with a single-character separator, on
character lists. -/
def joinChar (sep : Char) : List (List Char) → List Char
  | [] => []
  | [x] => x
  | x :: y :: rest => x ++ sep :: joinChar sep (y :: rest)

/-- JS `parts.join(sep)` on Lean strings. -/
def jsJoin (sep : Char) (parts : List String) : String :=
  String.mk (joinChar sep (parts.map String.toList))

/-- `encodeTickets` from `ticketTransfer.ts`:
`tickets.map((t) => t.number + COLOUR_TO_CHAR[t.colour]).join(',')`. -/
def encodeTickets (tickets : List RaffleTicket) : String :=
  jsJoin ',' (tickets.map fun t => t.number ++ colourToChar t.colour)

/-- JS `entry.slice(-1)`: the last character as a string, `""` on `""`. -/
def sliceLast (s : String) : String :=
  match s.toList.getLast? with
  | some c => String.mk [c]
  | none => ""

/-- JS `entry.slice(0, -1)`: everything but the last character. -/
def sliceDropLast (s : String) : String :=
  String.mk s.toList.dropLast

/-- One decoded entry of `decodeTickets`: last character looked up in
`CHAR_TO_COLOUR` with `|| 'White'` fallback, remaining characters as the
number, and the supplied fresh id. -/
def mkDecodedTicket (idv : ℕ) (entry : String) : RaffleTicket :=
  { id := idv
    number := sliceDropLast entry
    colour := (charToColour (sliceLast entry)).getD .White }

/-- The `entries.map((entry, index) => ...)` loop of `decodeTickets`,
with `id = now + index`. -/
def decodeEntriesAux (now : ℕ) : ℕ → List String → List RaffleTicket
  | _, [] => []
  | idx, e :: rest => mkDecodedTicket (now + idx) e :: decodeEntriesAux now (idx + 1) rest

/-- `decodeTickets` from `ticketTransfer.ts`. `now` models `Date.now()`.
`if (!data) return null` is the empty-string test; the body raises no
exception, so the `try/catch` adds nothing. -/
def decodeTickets (now : ℕ) (data : String) : Option (List RaffleTicket) :=
  if data = "" then none
  else some (decodeEntriesAux now 0 (jsSplit ',' data))

/-- `estimateQRSize` from `ticketTransfer.ts`. -/
def estimateQRSize (tickets : List RaffleTicket) : ℕ :=
  (encodeTickets tickets).length

/-- `MAX_SAFE_BYTES` from `ticketTransfer.ts`. -/
def MAX_SAFE_BYTES : ℕ := 2000

example : encodeTickets [⟨1, "12345", .Red⟩, ⟨2, "678", .Blue⟩] = "12345R,678B" := by decide

example : decodeTickets 0 "12345R,678B" =
    some [⟨0, "12345", .Red⟩, ⟨1, "678", .Blue⟩] := by decide

example : decodeTickets 7 "" = none := by decide

example : decodeTickets 0 "12Z" = some [⟨0, "12", .White⟩] := by decide

/-! ### Split / join round-trip lemmas -/

theorem splitChar_ne_nil (sep : Char) (l : List Char) : splitChar sep l ≠ [] := by
  induction l with
  | nil => simp [splitChar]
  | cons c rest ih =>
    simp only [splitChar]
    by_cases h : c = sep
    · simp [h]
    · simp only [h, if_false]
      cases hs : splitChar sep rest with
      | nil => simp
      | cons g gs => simp

theorem splitChar_no_sep (sep : Char) (l : List Char) (h : sep ∉ l) :
    splitChar sep l = [l] := by
  induction l with
  | nil => rfl
  | cons c rest ih =>
    simp only [List.mem_cons, not_or] at h
    have hc : ¬ c = sep := fun hh => h.1 hh.symm
    simp only [splitChar, hc, if_false]
    rw [ih h.2]

theorem splitChar_append (sep : Char) (x t : List Char) (hx : sep ∉ x) :
    splitChar sep (x ++ sep :: t) = x :: splitChar sep t := by
  induction x with
  | nil => simp [splitChar]
  | cons c rest ih =>
    simp only [List.mem_cons, not_or] at hx
    have hc : ¬ c = sep := fun hh => hx.1 hh.symm
    simp only [List.cons_append, splitChar, hc, if_false, List.append_eq]
    rw [ih hx.2]

theorem splitChar_joinChar (sep : Char) (chunks : List (List Char))
    (hne : chunks ≠ []) (hsep : ∀ l ∈ chunks, sep ∉ l) :
    splitChar sep (joinChar sep chunks) = chunks := by
  induction chunks with
  | nil => exact absurd rfl hne
  | cons x rest ih =>
    cases rest with
    | nil =>
      simp only [joinChar]
      exact splitChar_no_sep sep x (hsep x (List.mem_cons_self x []))
    | cons y rest2 =>
      simp only [joinChar]
      rw [splitChar_append sep x (joinChar sep (y :: rest2))
        (hsep x (List.mem_cons_self x (y :: rest2)))]
      rw [ih (by simp) (fun l hl => hsep l (List.mem_cons_of_mem x hl))]

theorem toList_mk (l : List Char) : (String.mk l).toList = l := rfl

theorem mk_toList (s : String) : String.mk s.toList = s := by
  cases s
  rfl

theorem toList_append (a b : String) : (a ++ b).toList = a.toList ++ b.toList := by
  cases a
  cases b
  rfl

theorem string_eq_empty_iff (s : String) : s = "" ↔ s.toList = [] := by
  cases s with
  | mk d =>
    constructor
    · intro h
      exact congrArg String.data h
    · intro h
      have hd : d = [] := h
      rw [hd]

/-- `jsSplit` inverts `jsJoin` on a nonempty list of separator-free parts. -/
theorem jsSplit_jsJoin (sep : Char) (parts : List String)
    (hne : parts ≠ []) (hsep : ∀ p ∈ parts, sep ∉ p.toList) :
    jsSplit sep (jsJoin sep parts) = parts := by
  unfold jsSplit jsJoin
  rw [toList_mk]
  rw [splitChar_joinChar sep (parts.map String.toList)
    (by simpa using hne)
    (by
      intro l hl
      obtain ⟨p, hp, rfl⟩ := List.mem_map.mp hl
      exact hsep p hp)]
  rw [List.map_map]
  have : (String.mk ∘ String.toList) = id := by
    funext s
    exact mk_toList s
  rw [this, List.map_id]

/-! ### Per-entry decode lemmas -/

theorem sliceDropLast_concat (num : String) (ch : Char) :
    sliceDropLast (num ++ String.mk [ch]) = num := by
  cases num with
  | mk d =>
    show String.mk ((d ++ [ch]).dropLast) = String.mk d
    rw [List.dropLast_concat]

theorem sliceLast_concat (num : String) (ch : Char) :
    sliceLast (num ++ String.mk [ch]) = String.mk [ch] := by
  cases num with
  | mk d =>
    show (match (d ++ [ch]).getLast? with
      | some c => String.mk [c]
      | none => "") = String.mk [ch]
    rw [List.getLast?_concat]

theorem sliceDropLast_entry (num : String) (c : Colour) :
    sliceDropLast (num ++ colourToChar c) = num := by
  cases c <;> exact sliceDropLast_concat num _

theorem sliceLast_entry (num : String) (c : Colour) :
    sliceLast (num ++ colourToChar c) = colourToChar c := by
  cases c <;> exact sliceLast_concat num _

theorem charToColour_colourToChar (c : Colour) :
    charToColour (colourToChar c) = some c := by
  cases c <;> rfl

theorem comma_not_in_colourChar (c : Colour) : ',' ∉ (colourToChar c).toList := by
  cases c <;> decide

theorem colourChar_toList_ne_nil (c : Colour) : (colourToChar c).toList ≠ [] := by
  cases c <;> decide

theorem decodeEntriesAux_length (now : ℕ) (parts : List String) :
    ∀ idx, (decodeEntriesAux now idx parts).length = parts.length := by
  induction parts with
  | nil => intro idx; rfl
  | cons e rest ih =>
    intro idx
    simp only [decodeEntriesAux, List.length_cons, ih]

theorem decodeEntriesAux_map_pair (now : ℕ) (parts : List String) :
    ∀ idx, (decodeEntriesAux now idx parts).map (fun t => (t.number, t.colour)) =
      parts.map (fun e => (sliceDropLast e, (charToColour (sliceLast e)).getD Colour.White)) := by
  induction parts with
  | nil => intro idx; rfl
  | cons e rest ih =>
    intro idx
    simp only [decodeEntriesAux, List.map_cons, ih, mkDecodedTicket]

theorem decodeEntriesAux_map_id (now : ℕ) (parts : List String) :
    ∀ idx, (decodeEntriesAux now idx parts).map RaffleTicket.id =
      (List.range parts.length).map (fun i => now + idx + i) := by
  induction parts with
  | nil => intro idx; rfl
  | cons e rest ih =>
    intro idx
    simp only [decodeEntriesAux, List.map_cons, ih, mkDecodedTicket,
      List.length_cons, List.range_succ_eq_map, List.map_map]
    refine congrArg₂ List.cons (by omega) ?_
    apply List.map_congr_left
    intro i _
    simp only [Function.comp_apply]
    omega

theorem decodeEntriesAux_getElem (now : ℕ) (parts : List String) :
    ∀ idx i (h : i < parts.length),
      (decodeEntriesAux now idx parts)[i]? =
        some (mkDecodedTicket (now + idx + i) (parts.get ⟨i, h⟩)) := by
  induction parts with
  | nil => intro idx i h; simp at h
  | cons e rest ih =>
    intro idx i h
    cases i with
    | zero => simp [decodeEntriesAux]
    | succ j =>
      have hj : j < rest.length := by simpa using h
      simp only [decodeEntriesAux, List.getElem?_cons_succ, List.get_cons_succ]
      rw [ih (idx + 1) j hj]
      have : now + idx + (j + 1) = now + (idx + 1) + j := by omega
      rw [this]

theorem joinChar_ne_nil (sep : Char) (chunks : List (List Char))
    (h1 : chunks ≠ []) (h2 : ∀ l ∈ chunks, l ≠ []) :
    joinChar sep chunks ≠ [] := by
  match chunks with
  | [] => exact absurd rfl h1
  | [x] => exact h2 x (List.mem_cons_self x [])
  | x :: y :: rest =>
    simp only [joinChar]
    intro hcontra
    have := List.append_eq_nil.mp hcontra
    exact absurd this.2 (by simp)

theorem encodeTickets_ne_empty (ts : List RaffleTicket) (hne : ts ≠ []) :
    encodeTickets ts ≠ "" := by
  unfold encodeTickets jsJoin
  intro hcontra
  rw [string_eq_empty_iff] at hcontra
  rw [toList_mk] at hcontra
  refine joinChar_ne_nil ',' _ ?_ ?_ hcontra
  · simpa using hne
  · intro l hl
    simp only [List.map_map, List.mem_map] at hl
    obtain ⟨t, _, rfl⟩ := hl
    simp only [Function.comp_apply]
    rw [toList_append]
    intro hnil
    exact absurd (List.append_eq_nil.mp hnil).2 (colourChar_toList_ne_nil t.colour)

theorem jsSplit_encodeTickets (ts : List RaffleTicket) (hne : ts ≠ [])
    (hnc : ∀ t ∈ ts, ',' ∉ t.number.toList) :
    jsSplit ',' (encodeTickets ts) = ts.map (fun t => t.number ++ colourToChar t.colour) := by
  unfold encodeTickets
  apply jsSplit_jsJoin
  · simpa using hne
  · intro p hp
    obtain ⟨t, ht, rfl⟩ := List.mem_map.mp hp
    rw [toList_append]
    simp only [List.mem_append, not_or]
    exact ⟨hnc t ht, comma_not_in_colourChar t.colour⟩

theorem charToColour_inv (s : String) (c : Colour) (h : charToColour s = some c) :
    colourToChar c = s := by
  unfold charToColour at h
  split at h <;> simp_all <;> subst h <;> rfl

/-! ### Claim C1: encode/decode round trip -/

/-- C1 (amended): for any NON-EMPTY sequence of tickets whose numbers contain
no comma, `decodeTickets (encodeTickets tickets)` yields a sequence of tickets
with identical (number, colour) pairs in the same order; identities are not
preserved — decode assigns the fresh ids `now + index`. (The original claim
quantified over all sequences, but the empty sequence encodes to `""`, which
decodes to `null`.) -/
theorem c1_encode_decode_roundtrip (now : ℕ) (ts : List RaffleTicket)
    (hne : ts ≠ []) (hnc : ∀ t ∈ ts, ',' ∉ t.number.toList) :
    ∃ ts2, decodeTickets now (encodeTickets ts) = some ts2
      ∧ ts2.map (fun t => (t.number, t.colour)) = ts.map (fun t => (t.number, t.colour))
      ∧ ts2.map RaffleTicket.id = (List.range ts.length).map (fun i => now + i) := by
  refine ⟨decodeEntriesAux now 0 (jsSplit ',' (encodeTickets ts)), ?_, ?_, ?_⟩
  · unfold decodeTickets
    rw [if_neg (encodeTickets_ne_empty ts hne)]
  · rw [jsSplit_encodeTickets ts hne hnc, decodeEntriesAux_map_pair, List.map_map]
    apply List.map_congr_left
    intro t _
    simp only [Function.comp_apply]
    rw [sliceDropLast_entry, sliceLast_entry, charToColour_colourToChar]
    rfl
  · rw [jsSplit_encodeTickets ts hne hnc, decodeEntriesAux_map_id]
    simp only [List.length_map]
    apply List.map_congr_left
    intro i _
    omega

/-- C1 counterexample to the unrestricted claim: the empty ticket sequence
encodes to `""`, and `decodeTickets` yields `null` on it rather than a
(empty) sequence of tickets. -/
theorem c1_empty_counterexample :
    encodeTickets ([] : List RaffleTicket) = ""
      ∧ decodeTickets 0 (encodeTickets ([] : List RaffleTicket)) = none := by
  decide

/-- C1 witness: the spec's own example, `[{12345,Red},{678,Blue}]`. -/
theorem c1_roundtrip_witness :
    ∃ ts2, decodeTickets 0 (encodeTickets [⟨1, "12345", .Red⟩, ⟨2, "678", .Blue⟩]) = some ts2
      ∧ ts2.map (fun t => (t.number, t.colour)) =
          ([⟨1, "12345", .Red⟩, ⟨2, "678", .Blue⟩] : List RaffleTicket).map
            (fun t => (t.number, t.colour))
      ∧ ts2.map RaffleTicket.id =
          (List.range ([⟨1, "12345", .Red⟩, ⟨2, "678", .Blue⟩] : List RaffleTicket).length).map
            (fun i => 0 + i) :=
  c1_encode_decode_roundtrip 0 [⟨1, "12345", .Red⟩, ⟨2, "678", .Blue⟩]
    (by decide) (by decide)

/-! ### Claim C4: decode totality on non-empty inputs -/

/-- C4: `decodeTickets` returns `null` iff its input is empty; every
non-empty input yields a non-null, non-empty list with exactly one ticket
per comma-separated entry. No payload is detected as malformed. -/
theorem c4_decode_total (now : ℕ) (data : String) :
    (decodeTickets now data = none ↔ data = "")
      ∧ (data ≠ "" → ∃ ts, decodeTickets now data = some ts ∧ ts ≠ []
          ∧ ts.length = (jsSplit ',' data).length) := by
  constructor
  · unfold decodeTickets
    split <;> simp_all
  · intro h
    refine ⟨decodeEntriesAux now 0 (jsSplit ',' data), ?_, ?_, decodeEntriesAux_length now _ 0⟩
    · unfold decodeTickets
      rw [if_neg h]
    · intro hcontra
      have hlen : (jsSplit ',' data).length = 0 := by
        rw [← decodeEntriesAux_length now (jsSplit ',' data) 0, hcontra]
        rfl
      have : jsSplit ',' data = [] := List.length_eq_zero.mp hlen
      unfold jsSplit at this
      exact splitChar_ne_nil ',' data.toList (by simpa using this)

/-- C4 witness: arbitrary non-ticket text decodes to a single (garbage)
ticket instead of being rejected. -/
theorem c4_decode_total_witness :
    ∃ ts, decodeTickets 0 "hello world" = some ts ∧ ts ≠ []
      ∧ ts.length = (jsSplit ',' "hello world").length :=
  (c4_decode_total 0 "hello world").2 (by decide)

/-! ### Claim C8: per-entry decoding -/

/-- C8: `decodeTickets` on `""` yields `null`; `CHAR_TO_COLOUR` is the
inverse of the encoding table `COLOUR_TO_CHAR` (and maps nothing else);
each decoded entry takes its last character as the colour code (defaulting
to White when unrecognised) and the remaining prefix as the number, with
fresh id `now + index`. -/
theorem c8_entry_decoding :
    (∀ now, decodeTickets now "" = none)
      ∧ (∀ c, charToColour (colourToChar c) = some c)
      ∧ (∀ s c, charToColour s = some c → colourToChar c = s)
      ∧ (∀ now data ts, decodeTickets now data = some ts →
          ∀ i (h : i < (jsSplit ',' data).length),
            ts[i]? = some { id := now + i
                            number := sliceDropLast ((jsSplit ',' data).get ⟨i, h⟩)
                            colour := (charToColour (sliceLast ((jsSplit ',' data).get ⟨i, h⟩))).getD
                              Colour.White }) := by
  refine ⟨fun now => rfl, charToColour_colourToChar, charToColour_inv, ?_⟩
  intro now data ts hts i h
  have hdata : ¬ data = "" := by
    intro hd
    rw [hd] at hts
    exact Option.noConfusion hts
  unfold decodeTickets at hts
  rw [if_neg hdata] at hts
  have hts2 : ts = decodeEntriesAux now 0 (jsSplit ',' data) := (Option.some.inj hts).symm
  rw [hts2, decodeEntriesAux_getElem now _ 0 i h]
  rfl

/-- C8 witness: `"12Z"` has an unrecognised colour code `Z`, decoding to
number `"12"` with the White fallback; and `decodeTickets 0 "" = none`. -/
theorem c8_entry_decoding_witness :
    decodeTickets 0 "" = none
      ∧ ([⟨5, "12", Colour.White⟩] : List RaffleTicket)[0]? =
          some { id := 5 + 0
                 number := sliceDropLast ((jsSplit ',' "12Z").get ⟨0, by decide⟩)
                 colour := (charToColour (sliceLast ((jsSplit ',' "12Z").get ⟨0, by decide⟩))).getD
                   Colour.White } :=
  ⟨c8_entry_decoding.1 0,
   c8_entry_decoding.2.2.2 5 "12Z" [⟨5, "12", Colour.White⟩] (by decide) 0 (by decide)⟩

/-! ### QRExport capacity guard (`QRExport.tsx`) -/

/-- What `QRExport` renders: the empty placeholder, the oversize warning
(with the ticket count it displays), or the `QRCodeSVG` with its payload. -/
inductive ExportView where
  | emptyMsg
  | warning (count : ℕ)
  | qr (payload : String)
deriving DecidableEq, Repr

/-- The render decision of `QRExport.tsx`:
`tickets.length === 0 ? empty : isOversize ? warning : <QRCodeSVG value={encoded}/>`,
with `isOversize = estimateQRSize(tickets) > MAX_SAFE_BYTES`. -/
def qrExportView (tickets : List RaffleTicket) : ExportView :=
  if tickets.length = 0 then .emptyMsg
  else if estimateQRSize tickets > MAX_SAFE_BYTES then .warning tickets.length
  else .qr (encodeTickets tickets)

/-! ### Claim C5 -/

/-- C5: a ticket list whose encoded payload length is exactly
`MAX_SAFE_BYTES = 2000` is rendered as a QR code; a payload one character
over is rejected with the warning and the QR render is never reached. -/
theorem c5_capacity_guard (tickets : List RaffleTicket) :
    (estimateQRSize tickets = 2000 → qrExportView tickets = .qr (encodeTickets tickets))
      ∧ (estimateQRSize tickets = 2001 → qrExportView tickets = .warning tickets.length) := by
  have hnil : ∀ n, estimateQRSize tickets = n → n ≠ 0 → tickets.length ≠ 0 := by
    intro n hsize hn hlen
    have : tickets = [] := List.length_eq_zero.mp hlen
    rw [this] at hsize
    have : estimateQRSize ([] : List RaffleTicket) = 0 := rfl
    omega
  constructor
  · intro hsize
    unfold qrExportView
    rw [if_neg (hnil 2000 hsize (by omega)), if_neg (by rw [hsize]; decide)]
  · intro hsize
    unfold qrExportView
    rw [if_neg (hnil 2001 hsize (by omega)), if_pos (by rw [hsize]; decide)]

/-- A ticket whose number is 1999 characters long: its encoded entry is
exactly 2000 bytes. -/
def boundaryTicket : RaffleTicket :=
  { id := 0, number := String.mk (List.replicate 1999 '1'), colour := .Red }

/-- A ticket whose number is 2000 characters long: its encoded entry is
2001 bytes, one over the threshold. -/
def overTicket : RaffleTicket :=
  { id := 0, number := String.mk (List.replicate 2000 '1'), colour := .Red }

theorem estimateQRSize_single (num : List Char) (c : Colour) :
    estimateQRSize [⟨0, String.mk num, c⟩] = num.length + 1 := by
  unfold estimateQRSize encodeTickets jsJoin
  show (String.mk (joinChar ',' [(String.mk num ++ colourToChar c).toList])).length = _
  unfold joinChar
  show ((String.mk num ++ colourToChar c).toList).length = _
  rw [toList_append, toList_mk, List.length_append]
  cases c <;> rfl

/-- C5 witness: at the boundary (2000 bytes) the QR is rendered; one byte
over (2001) the warning is shown instead. -/
theorem c5_capacity_guard_witness :
    qrExportView [boundaryTicket] = .qr (encodeTickets [boundaryTicket])
      ∧ qrExportView [overTicket] = .warning 1 :=
  ⟨(c5_capacity_guard [boundaryTicket]).1
      (by rw [show [boundaryTicket] = [⟨0, String.mk (List.replicate 1999 '1'), .Red⟩] from rfl,
            estimateQRSize_single]; rw [List.length_replicate]),
   (c5_capacity_guard [overTicket]).2
      (by rw [show [overTicket] = [⟨0, String.mk (List.replicate 2000 '1'), .Red⟩] from rfl,
            estimateQRSize_single]; rw [List.length_replicate])⟩

/-! ### QRImport scan loop (`QRImport.tsx`) -/

/-- `ImportStatus` from `QRImport.tsx`. -/
inductive ImportStatus where
  | idle
  | cameraLoading
  | scanning
  | success
  | errored
deriving DecidableEq, Repr

/-- The state touched by one `scanFrame` tick: the status, whether the
camera stream is live, whether another animation frame is scheduled
(`animationRef`), and the tickets stored by `setImportedTickets`. -/
structure ImportState where
  status : ImportStatus
  cameraOn : Bool
  polling : Bool
  importedTickets : Option (List RaffleTicket)
deriving DecidableEq, Repr

/-- One execution of `scanFrame` from `QRImport.tsx`.
`frameReady` models `video.readyState === HAVE_ENOUGH_DATA` (with the refs
present), `ctxOk` the `canvas.getContext` result, and `qr` the result of
`jsQR` on the drawn frame (`some payload` when a symbol was found).
On a non-empty decode it stores the tickets, sets `success`, stops the
camera (which also cancels the scheduled frame) and returns; every other
path except a null context schedules a new animation frame. -/
def scanFrameStep (now : ℕ) (frameReady ctxOk : Bool) (qr : Option String)
    (s : ImportState) : ImportState :=
  if ¬ frameReady then { s with polling := true }
  else if ¬ ctxOk then { s with polling := false }
  else
    match qr with
    | some payload =>
      match decodeTickets now payload with
      | some ts =>
        if ts.length > 0 then
          { s with status := .success, importedTickets := some ts,
                   cameraOn := false, polling := false }
        else { s with polling := true }
      | none => { s with polling := true }
    | none => { s with polling := true }

/-! ### Claim C3 -/

/-- C3: starting from a live scanning state, one `scanFrame` tick stops
polling, releases the camera and transitions to `success` exactly when the
frame carries a QR payload whose decode yields a non-empty ticket
sequence; a frame whose QR symbol decodes to an empty or malformed payload
(decode `null` or an empty list) keeps the loop scanning. -/
theorem c3_scan_loop_stops (now : ℕ) (frameReady ctxOk : Bool) (qr : Option String)
    (s : ImportState) (hstat : s.status = .scanning) (hcam : s.cameraOn = true) :
    ((scanFrameStep now frameReady ctxOk qr s).status = .success
        ∧ (scanFrameStep now frameReady ctxOk qr s).cameraOn = false
        ∧ (scanFrameStep now frameReady ctxOk qr s).polling = false
      ↔ frameReady = true ∧ ctxOk = true
          ∧ ∃ p ts, qr = some p ∧ decodeTickets now p = some ts ∧ 0 < ts.length)
      ∧ (frameReady = true → ctxOk = true → ∀ p, qr = some p →
          (∀ ts, decodeTickets now p = some ts → ts.length = 0) →
          (scanFrameStep now frameReady ctxOk qr s).polling = true
            ∧ (scanFrameStep now frameReady ctxOk qr s).status = .scanning
            ∧ (scanFrameStep now frameReady ctxOk qr s).cameraOn = true) := by
  constructor
  · constructor
    · intro ⟨hsucc, hcamoff, hpoll⟩
      by_cases hfr : frameReady
      · by_cases hctx : ctxOk
        · cases hqr : qr with
          | none =>
            rw [scanFrameStep.eq_def] at hsucc
            simp [hfr, hctx, hqr, hstat] at hsucc
          | some p =>
            cases hdec : decodeTickets now p with
            | none =>
              rw [scanFrameStep.eq_def] at hsucc
              simp [hfr, hctx, hqr, hdec, hstat] at hsucc
            | some ts =>
              by_cases hlen : ts.length > 0
              · exact ⟨by simpa using hfr, by simpa using hctx, p, ts, rfl, hdec, hlen⟩
              · rw [scanFrameStep.eq_def] at hsucc
                simp [hfr, hctx, hqr, hdec, hlen, hstat] at hsucc
        · rw [scanFrameStep.eq_def] at hsucc
          simp [hfr, hctx, hstat] at hsucc
      · rw [scanFrameStep.eq_def] at hsucc
        simp [hfr, hstat] at hsucc
    · intro ⟨hfr, hctx, p, ts, hqr, hdec, hlen⟩
      rw [scanFrameStep.eq_def]
      simp [hfr, hctx, hqr, hdec, hlen]
  · intro hfr hctx p hqr hempty
    cases hdec : decodeTickets now p with
    | none =>
      rw [scanFrameStep.eq_def]
      simp [hfr, hctx, hqr, hdec, hstat, hcam]
    | some ts =>
      have : ts.length = 0 := hempty ts hdec
      rw [scanFrameStep.eq_def]
      simp [hfr, hctx, hqr, hdec, this, hstat, hcam]

/-- C3 witness: a frame carrying the payload `"12R"` stops the loop with
`success`, camera off; a frame whose QR decodes to the empty payload keeps
scanning. -/
theorem c3_scan_loop_stops_witness :
    ((scanFrameStep 0 true true (some "12R") ⟨.scanning, true, true, none⟩).status = .success
        ∧ (scanFrameStep 0 true true (some "12R") ⟨.scanning, true, true, none⟩).cameraOn = false
        ∧ (scanFrameStep 0 true true (some "12R") ⟨.scanning, true, true, none⟩).polling = false)
      ∧ ((scanFrameStep 0 true true (some "") ⟨.scanning, true, true, none⟩).polling = true
        ∧ (scanFrameStep 0 true true (some "") ⟨.scanning, true, true, none⟩).status = .scanning
        ∧ (scanFrameStep 0 true true (some "") ⟨.scanning, true, true, none⟩).cameraOn = true) :=
  ⟨(c3_scan_loop_stops 0 true true (some "12R") ⟨.scanning, true, true, none⟩ rfl rfl).1.mpr
      ⟨rfl, rfl, "12R", [⟨0, "12", .Red⟩], rfl, by decide, by decide⟩,
   (c3_scan_loop_stops 0 true true (some "") ⟨.scanning, true, true, none⟩ rfl rfl).2
      rfl rfl "" rfl (fun ts hts => by simp [decodeTickets] at hts)⟩

/-! ### Scanner (`Scanner.tsx`): colour detection, coordinate mapping,
capture state machine -/

/-- JS `Math.round`: round half towards positive infinity. -/
def jsRound (q : ℚ) : ℤ := ⌊q + 1 / 2⌋

/-- A DOM rectangle (`getBoundingClientRect` result), with rational
coordinates. -/
structure DomRect where
  left : ℚ
  top : ℚ
  width : ℚ
  height : ℚ
deriving DecidableEq, Repr

/-- The raw-frame pixel rectangle handed to OCR and colour detection. -/
structure SensorRect where
  left : ℤ
  top : ℤ
  width : ℤ
  height : ℤ
deriving DecidableEq, Repr

/-- `COLOUR_RGB` from `Scanner.tsx`. -/
def colourRGB : Colour → ℚ × ℚ × ℚ
  | .Red => (229, 57, 53)
  | .Blue => (30, 136, 229)
  | .Green => (67, 160, 71)
  | .Yellow => (253, 216, 53)
  | .Orange => (251, 140, 0)
  | .Purple => (142, 36, 170)
  | .Pink => (216, 27, 96)
  | .White => (245, 245, 245)

/-- Squared Euclidean RGB distance. The code compares
`Math.sqrt` of this quantity; square root is strictly monotone on
nonnegative reals, so the `<` comparisons in the loop (and "distance 0")
are unchanged by working with the squared distance. -/
def distSq (a b : ℚ × ℚ × ℚ) : ℚ :=
  (a.1 - b.1) ^ 2 + (a.2.1 - b.2.1) ^ 2 + (a.2.2 - b.2.2) ^ 2

/-- One iteration of the `for (const colour of COLOURS)` loop of
`detectColour`: `none` models the initial `minDistance = Infinity`
(every finite distance wins against it). -/
def classifyStep (key : Colour → ℚ) (st : Colour × Option ℚ) (c : Colour) :
    Colour × Option ℚ :=
  match st.2 with
  | none => (c, some (key c))
  | some m => if key c < m then (c, some (key c)) else st

/-- The classification loop of `detectColour`, starting from
`closestColour = White`, `minDistance = Infinity`. -/
def classify (avg : ℚ × ℚ × ℚ) : Colour :=
  (COLOURS.foldl (classifyStep fun c => distSq avg (colourRGB c)) (Colour.White, none)).1

/-- The sample points of `detectColour`: 20 point pairs along the top and
bottom edges, then 20 pairs along the left and right edges, in push
order. -/
def samplePoints (rect : DomRect) : List (ℚ × ℚ) :=
  ((List.range 20).flatMap fun i =>
    [(rect.left + rect.width * i / 20, rect.top + 5),
     (rect.left + rect.width * i / 20, rect.top + rect.height - 5)])
  ++ ((List.range 20).flatMap fun i =>
    [(rect.left + 5, rect.top + rect.height * i / 20),
     (rect.left + rect.width - 5, rect.top + rect.height * i / 20)])

/-- The sampled pixels: `ctx.getImageData(Math.round(x), Math.round(y), 1, 1)`
modelled by a pixel function `px` on integer coordinates. -/
def samplesOf (px : ℤ → ℤ → ℚ × ℚ × ℚ) (rect : DomRect) : List (ℚ × ℚ × ℚ) :=
  (samplePoints rect).map fun p => px (jsRound p.1) (jsRound p.2)

/-- The averaging step of `detectColour` (`totalR/count`, etc.; `count` is
the number of sample points). -/
def avgOf (px : ℤ → ℤ → ℚ × ℚ × ℚ) (rect : DomRect) : ℚ × ℚ × ℚ :=
  ((((samplesOf px rect).map fun v => v.1).sum) / ((samplesOf px rect).length : ℚ),
   (((samplesOf px rect).map fun v => v.2.1).sum) / ((samplesOf px rect).length : ℚ),
   (((samplesOf px rect).map fun v => v.2.2).sum) / ((samplesOf px rect).length : ℚ))

/-- `detectColour` from `Scanner.tsx`: average the sampled pixels, then
pick the closest reference colour. -/
def detectColour (px : ℤ → ℤ → ℚ × ℚ × ℚ) (rect : DomRect) : Colour :=
  classify (avgOf px rect)

/-- The coordinate mapping of `captureAndRecognize` (`Scanner.tsx`
lines 163-193): object-fit cover scale selection, crop offset, and a
single `Math.round` per output component. -/
def mapScanRegion (vw vh : ℕ) (videoRect scanRect : DomRect) : SensorRect :=
  let relativeLeft := scanRect.left - videoRect.left
  let relativeTop := scanRect.top - videoRect.top
  let videoAspect : ℚ := (vw : ℚ) / (vh : ℚ)
  let displayAspect : ℚ := videoRect.width / videoRect.height
  if videoAspect > displayAspect then
    let scale : ℚ := (vh : ℚ) / videoRect.height
    let offsetX := ((vw : ℚ) - videoRect.width * scale) / 2
    let offsetY : ℚ := 0
    ⟨jsRound (offsetX + relativeLeft * scale), jsRound (offsetY + relativeTop * scale),
     jsRound (scanRect.width * scale), jsRound (scanRect.height * scale)⟩
  else
    let scale : ℚ := (vw : ℚ) / videoRect.width
    let offsetX : ℚ := 0
    let offsetY := ((vh : ℚ) - videoRect.height * scale) / 2
    ⟨jsRound (offsetX + relativeLeft * scale), jsRound (offsetY + relativeTop * scale),
     jsRound (scanRect.width * scale), jsRound (scanRect.height * scale)⟩

/-- `ScanStatus` from `Scanner.tsx`. -/
inductive ScanStatus where
  | idle
  | cameraLoading
  | ready
  | capturing
  | processing
  | confirm
  | errored
deriving DecidableEq, Repr

/-- User and internal events of the capture flow. `capture` is the
[CAPTURE] button press; `frameCaptured` is the synchronous frame grab
ending in `setStatus('processing')`; `ocrDone ok` is the awaited OCR
result. -/
inductive ScanEvent where
  | capture
  | frameCaptured
  | ocrDone (ok : Bool)
deriving DecidableEq, Repr

/-- The capture state machine of `Scanner.tsx`. The [CAPTURE] button is
rendered only while `status === 'ready'`, so a `capture` action in any
other state — in particular `capturing` or `processing` — has no handler
attached and leaves the state unchanged (no queueing). -/
def scanStep (s : ScanStatus) (e : ScanEvent) : ScanStatus :=
  match s, e with
  | .ready, .capture => .capturing
  | .capturing, .frameCaptured => .processing
  | .processing, .ocrDone true => .confirm
  | .processing, .ocrDone false => .ready
  | st, _ => st

/-- Run the capture machine over an event list, counting transitions into
`processing` (the number of processing cycles started). -/
def runScan : ScanStatus → List ScanEvent → ScanStatus × ℕ
  | s, [] => (s, 0)
  | s, e :: es =>
    let s2 := scanStep s e
    let r := runScan s2 es
    (r.1, (if s2 = .processing ∧ ¬ s = .processing then 1 else 0) + r.2)

example : (samplePoints ⟨0, 0, 20, 20⟩).length = 80 := by decide

/-! ### Classifier argmin lemmas -/

/-- The classification loop once the accumulator is finite: plain
(colour, minimum) folding. -/
def foldMinFrom (key : Colour → ℚ) (c0 : Colour) (m0 : ℚ) (l : List Colour) : Colour × ℚ :=
  l.foldl (fun st c => if key c < st.2 then (c, key c) else st) (c0, m0)

theorem foldl_classifyStep_some (key : Colour → ℚ) (l : List Colour) :
    ∀ c0 m0, l.foldl (classifyStep key) (c0, some m0) =
      ((foldMinFrom key c0 m0 l).1, some (foldMinFrom key c0 m0 l).2) := by
  induction l with
  | nil => intro c0 m0; rfl
  | cons c l ih =>
    intro c0 m0
    by_cases h : key c < m0
    · have h1 : List.foldl (classifyStep key) (c0, some m0) (c :: l) =
          List.foldl (classifyStep key) (c, some (key c)) l := by
        rw [List.foldl_cons]
        simp [classifyStep, h]
      have h2 : foldMinFrom key c0 m0 (c :: l) = foldMinFrom key c (key c) l := by
        simp [foldMinFrom, h]
      rw [h1, h2, ih]
    · have h1 : List.foldl (classifyStep key) (c0, some m0) (c :: l) =
          List.foldl (classifyStep key) (c0, some m0) l := by
        rw [List.foldl_cons]
        simp [classifyStep, h]
      have h2 : foldMinFrom key c0 m0 (c :: l) = foldMinFrom key c0 m0 l := by
        simp [foldMinFrom, h]
      rw [h1, h2, ih]

theorem foldMinFrom_le (key : Colour → ℚ) (l : List Colour) :
    ∀ c0 m0, (foldMinFrom key c0 m0 l).2 ≤ m0
      ∧ ∀ d ∈ l, (foldMinFrom key c0 m0 l).2 ≤ key d := by
  induction l with
  | nil =>
    intro c0 m0
    exact ⟨le_refl _, by simp⟩
  | cons c l ih =>
    intro c0 m0
    by_cases h : key c < m0
    · have h2 : foldMinFrom key c0 m0 (c :: l) = foldMinFrom key c (key c) l := by
        simp [foldMinFrom, h]
      rw [h2]
      obtain ⟨h3, h4⟩ := ih c (key c)
      refine ⟨le_of_lt (lt_of_le_of_lt h3 h), ?_⟩
      intro d hd
      rcases List.mem_cons.mp hd with rfl | hd2
      · exact h3
      · exact h4 d hd2
    · have h2 : foldMinFrom key c0 m0 (c :: l) = foldMinFrom key c0 m0 l := by
        simp [foldMinFrom, h]
      rw [h2]
      obtain ⟨h3, h4⟩ := ih c0 m0
      refine ⟨h3, ?_⟩
      intro d hd
      rcases List.mem_cons.mp hd with rfl | hd2
      · exact le_trans h3 (not_lt.mp h)
      · exact h4 d hd2

theorem foldMinFrom_first (key : Colour → ℚ) (l : List Colour) :
    ∀ c0 m0,
      ((foldMinFrom key c0 m0 l).1 = c0 ∧ (foldMinFrom key c0 m0 l).2 = m0)
      ∨ ((foldMinFrom key c0 m0 l).2 < m0
          ∧ (foldMinFrom key c0 m0 l).2 = key (foldMinFrom key c0 m0 l).1
          ∧ l.find? (fun d => decide (key d ≤ (foldMinFrom key c0 m0 l).2))
              = some (foldMinFrom key c0 m0 l).1) := by
  induction l with
  | nil =>
    intro c0 m0
    exact Or.inl ⟨rfl, rfl⟩
  | cons c l ih =>
    intro c0 m0
    by_cases h : key c < m0
    · have h2 : foldMinFrom key c0 m0 (c :: l) = foldMinFrom key c (key c) l := by
        simp [foldMinFrom, h]
      rw [h2]
      rcases ih c (key c) with ⟨e1, e2⟩ | ⟨f1, f2, f3⟩
      · refine Or.inr ⟨by rw [e2]; exact h, by rw [e2, e1], ?_⟩
        rw [List.find?_cons_of_pos _ (by rw [e2]; simp)]
        rw [e1]
      · refine Or.inr ⟨lt_trans f1 h, f2, ?_⟩
        rw [List.find?_cons_of_neg _ (by simp [not_le.mpr f1])]
        exact f3
    · have h2 : foldMinFrom key c0 m0 (c :: l) = foldMinFrom key c0 m0 l := by
        simp [foldMinFrom, h]
      rw [h2]
      rcases ih c0 m0 with ⟨e1, e2⟩ | ⟨f1, f2, f3⟩
      · exact Or.inl ⟨e1, e2⟩
      · refine Or.inr ⟨f1, f2, ?_⟩
        have hkc : ¬ key c ≤ (foldMinFrom key c0 m0 l).2 :=
          not_le.mpr (lt_of_lt_of_le f1 (not_lt.mp h))
        rw [List.find?_cons_of_neg _ (by simp [hkc])]
        exact f3

/-- The loop of `detectColour` returns the first colour (in `COLOURS`
enumeration order) attaining the minimum distance to `avg`. -/
theorem classify_spec (avg : ℚ × ℚ × ℚ) :
    classify avg ∈ COLOURS
      ∧ (∀ d ∈ COLOURS,
          distSq avg (colourRGB (classify avg)) ≤ distSq avg (colourRGB d))
      ∧ COLOURS.find?
          (fun d => decide (distSq avg (colourRGB d) ≤ distSq avg (colourRGB (classify avg))))
          = some (classify avg) := by
  set key : Colour → ℚ := fun c => distSq avg (colourRGB c) with hkey
  have hrest : COLOURS = Colour.Red ::
      [Colour.Blue, Colour.Green, Colour.Yellow, Colour.Orange,
       Colour.Purple, Colour.Pink, Colour.White] := rfl
  set rest : List Colour :=
    [Colour.Blue, Colour.Green, Colour.Yellow, Colour.Orange,
     Colour.Purple, Colour.Pink, Colour.White] with hrestdef
  set r := foldMinFrom key Colour.Red (key Colour.Red) rest with hr
  have hclass : classify avg = r.1 := by
    show (COLOURS.foldl (classifyStep key) (Colour.White, none)).1 = r.1
    rw [hrest]
    rw [List.foldl_cons]
    have : classifyStep key (Colour.White, none) Colour.Red =
        (Colour.Red, some (key Colour.Red)) := rfl
    rw [this, foldl_classifyStep_some]
  have hle := foldMinFrom_le key rest Colour.Red (key Colour.Red)
  have hfirst := foldMinFrom_first key rest Colour.Red (key Colour.Red)
  have hr2 : r.2 = key r.1 := by
    rcases hfirst with ⟨e1, e2⟩ | ⟨_, f2, _⟩
    · rw [e2, e1]
    · exact f2
  refine ⟨?_, ?_, ?_⟩
  · rw [hclass]
    rcases hfirst with ⟨e1, _⟩ | ⟨_, _, f3⟩
    · rw [e1, hrest]
      exact List.mem_cons_self _ _
    · rw [hrest]
      exact List.mem_cons_of_mem _ (List.mem_of_find?_eq_some f3)
  · intro d hd
    rw [hclass]
    show key r.1 ≤ key d
    rw [← hr2]
    rw [hrest] at hd
    rcases List.mem_cons.mp hd with rfl | hd2
    · exact hle.1
    · exact hle.2 d hd2
  · rw [hclass]
    show List.find? (fun d => decide (key d ≤ key r.1)) COLOURS = some r.1
    rw [← hr2, hrest]
    rcases hfirst with ⟨e1, e2⟩ | ⟨f1, _, f3⟩
    · rw [List.find?_cons_of_pos _ (by rw [e2]; simp)]
      rw [e1]
    · rw [List.find?_cons_of_neg _ (by simp [not_le.mpr f1])]
      exact f3

theorem sum_map_const {α : Type} (l : List α) (f : α → ℚ) (k : ℚ)
    (h : ∀ x ∈ l, f x = k) : (l.map f).sum = l.length * k := by
  induction l with
  | nil => simp
  | cons x l ih =>
    rw [List.map_cons, List.sum_cons, h x (List.mem_cons_self x l),
      ih (fun y hy => h y (List.mem_cons_of_mem x hy)), List.length_cons]
    push_cast
    ring

theorem samplePoints_length (rect : DomRect) : (samplePoints rect).length = 80 := rfl

/-- If every sampled pixel equals `v`, the average is exactly `v`. -/
theorem avgOf_const (px : ℤ → ℤ → ℚ × ℚ × ℚ) (rect : DomRect) (v : ℚ × ℚ × ℚ)
    (h : ∀ p ∈ samplePoints rect, px (jsRound p.1) (jsRound p.2) = v) :
    avgOf px rect = v := by
  have hmem : ∀ x ∈ samplesOf px rect, x = v := by
    intro x hx
    obtain ⟨p, hp, rfl⟩ := List.mem_map.mp hx
    exact h p hp
  have hlen : (samplesOf px rect).length = 80 := by
    unfold samplesOf
    rw [List.length_map, samplePoints_length]
  unfold avgOf
  rw [sum_map_const _ _ v.1 (fun x hx => by rw [hmem x hx]),
    sum_map_const _ _ v.2.1 (fun x hx => by rw [hmem x hx]),
    sum_map_const _ _ v.2.2 (fun x hx => by rw [hmem x hx]), hlen]
  show ((80 : ℚ) * v.1 / 80, (80 : ℚ) * v.2.1 / 80, (80 : ℚ) * v.2.2 / 80) = v
  norm_num

theorem classify_exact (c : Colour) : classify (colourRGB c) = c := by
  cases c <;> norm_num [classify, COLOURS, classifyStep, distSq, colourRGB]

theorem distSq_self (v : ℚ × ℚ × ℚ) : distSq v v = 0 := by
  simp [distSq]

/-! ### Claim C7 -/

/-- C7: the classifier returns the enumerated colour whose canonical RGB
triple minimises the (squared) Euclidean distance to the averaged sample,
first match winning ties; and for a rectangle whose sampled pixels all
equal a reference colour's exact RGB value, `detectColour` returns that
colour and the distance is 0. -/
theorem c7_colour_classifier (avg : ℚ × ℚ × ℚ) (px : ℤ → ℤ → ℚ × ℚ × ℚ)
    (rect : DomRect) (c : Colour) :
    (classify avg ∈ COLOURS
      ∧ (∀ d ∈ COLOURS,
          distSq avg (colourRGB (classify avg)) ≤ distSq avg (colourRGB d))
      ∧ COLOURS.find?
          (fun d => decide (distSq avg (colourRGB d) ≤ distSq avg (colourRGB (classify avg))))
          = some (classify avg))
    ∧ ((∀ p ∈ samplePoints rect, px (jsRound p.1) (jsRound p.2) = colourRGB c) →
        detectColour px rect = c ∧ distSq (avgOf px rect) (colourRGB c) = 0) := by
  refine ⟨classify_spec avg, ?_⟩
  intro h
  have havg : avgOf px rect = colourRGB c := avgOf_const px rect (colourRGB c) h
  constructor
  · unfold detectColour
    rw [havg, classify_exact]
  · rw [havg, distSq_self]

/-- C7 witness: a uniform Red sample region classifies as Red with
distance 0. -/
theorem c7_colour_classifier_witness :
    detectColour (fun _ _ => colourRGB Colour.Red) ⟨0, 0, 20, 20⟩ = Colour.Red
      ∧ distSq (avgOf (fun _ _ => colourRGB Colour.Red) ⟨0, 0, 20, 20⟩)
          (colourRGB Colour.Red) = 0 :=
  (c7_colour_classifier (0, 0, 0) (fun _ _ => colourRGB Colour.Red)
    ⟨0, 0, 20, 20⟩ Colour.Red).2 (fun _ _ => rfl)

/-! ### Coordinate mapping lemmas -/

theorem jsRound_eq (q : ℚ) (z : ℤ) (h1 : (z : ℚ) ≤ q + 1 / 2) (h2 : q + 1 / 2 < z + 1) :
    jsRound q = z := by
  unfold jsRound
  rw [Int.floor_eq_iff]
  exact ⟨h1, h2⟩

theorem jsRound_zero : jsRound 0 = 0 := by
  apply jsRound_eq <;> norm_num

theorem jsRound_natCast (n : ℕ) : jsRound (n : ℚ) = n := by
  apply jsRound_eq <;> push_cast <;> norm_num

theorem mapScanRegion_wide (vw vh : ℕ) (videoRect scanRect : DomRect)
    (h : (vw : ℚ) / (vh : ℚ) > videoRect.width / videoRect.height) :
    mapScanRegion vw vh videoRect scanRect =
      ⟨jsRound (((vw : ℚ) - videoRect.width * ((vh : ℚ) / videoRect.height)) / 2
          + (scanRect.left - videoRect.left) * ((vh : ℚ) / videoRect.height)),
       jsRound (0 + (scanRect.top - videoRect.top) * ((vh : ℚ) / videoRect.height)),
       jsRound (scanRect.width * ((vh : ℚ) / videoRect.height)),
       jsRound (scanRect.height * ((vh : ℚ) / videoRect.height))⟩ := by
  simp only [mapScanRegion]
  rw [if_pos h]

theorem mapScanRegion_tall (vw vh : ℕ) (videoRect scanRect : DomRect)
    (h : ¬ ((vw : ℚ) / (vh : ℚ) > videoRect.width / videoRect.height)) :
    mapScanRegion vw vh videoRect scanRect =
      ⟨jsRound (0 + (scanRect.left - videoRect.left) * ((vw : ℚ) / videoRect.width)),
       jsRound (((vh : ℚ) - videoRect.height * ((vw : ℚ) / videoRect.width)) / 2
          + (scanRect.top - videoRect.top) * ((vw : ℚ) / videoRect.width)),
       jsRound (scanRect.width * ((vw : ℚ) / videoRect.width)),
       jsRound (scanRect.height * ((vw : ℚ) / videoRect.width))⟩ := by
  simp only [mapScanRegion]
  rw [if_neg h]

/-! ### Claim C2 -/

/-- C2 (amended): mapping a ScreenRect that exactly equals the full display
box yields the full raw-frame box `{0, 0, videoWidth, videoHeight}` when
the video and display aspect ratios are EQUAL. (The original claim asserted
this "regardless of the two aspect ratios"; when the ratios differ the full
display box maps to the cover-visible cropped portion of the frame
instead — see the counterexample.) -/
theorem c2_full_box_equal_aspect (vw vh : ℕ) (videoRect : DomRect)
    (_hvw : 0 < vw) (hvh : 0 < vh)
    (hw : 0 < videoRect.width) (hh : 0 < videoRect.height)
    (haspect : (vw : ℚ) * videoRect.height = (vh : ℚ) * videoRect.width) :
    mapScanRegion vw vh videoRect videoRect = ⟨0, 0, (vw : ℤ), (vh : ℤ)⟩ := by
  have hWne : videoRect.width ≠ 0 := ne_of_gt hw
  have hHne : videoRect.height ≠ 0 := ne_of_gt hh
  have hvhQ : (vh : ℚ) ≠ 0 := Nat.cast_ne_zero.mpr (by omega)
  have haspeq : (vw : ℚ) / (vh : ℚ) = videoRect.width / videoRect.height := by
    field_simp
    linarith [haspect]
  have hcross : videoRect.height * ((vw : ℚ) / videoRect.width) = (vh : ℚ) := by
    field_simp
    linarith [haspect]
  rw [mapScanRegion_tall vw vh videoRect videoRect
    (by rw [haspeq]; exact lt_irrefl _)]
  have e1 : jsRound (0 + (videoRect.left - videoRect.left) * ((vw : ℚ) / videoRect.width))
      = 0 := by
    rw [sub_self, zero_mul, add_zero, jsRound_zero]
  have e2 : jsRound (((vh : ℚ) - videoRect.height * ((vw : ℚ) / videoRect.width)) / 2
      + (videoRect.top - videoRect.top) * ((vw : ℚ) / videoRect.width)) = 0 := by
    rw [hcross, sub_self, zero_div, sub_self, zero_mul, add_zero, jsRound_zero]
  have e3 : jsRound (videoRect.width * ((vw : ℚ) / videoRect.width)) = (vw : ℤ) := by
    have : videoRect.width * ((vw : ℚ) / videoRect.width) = (vw : ℚ) := by
      field_simp
    rw [this, jsRound_natCast]
  have e4 : jsRound (videoRect.height * ((vw : ℚ) / videoRect.width)) = (vh : ℤ) := by
    rw [hcross, jsRound_natCast]
  rw [e1, e2, e3, e4]

/-- C2 counterexample to the original claim: a 1280x720 frame displayed in
a 360x640 box (portrait phone). The full display box maps to the visible
crop `{438, 0, 405, 720}`, not to the full frame `{0, 0, 1280, 720}`. -/
theorem c2_aspect_counterexample :
    mapScanRegion 1280 720 ⟨0, 0, 360, 640⟩ ⟨0, 0, 360, 640⟩ = ⟨438, 0, 405, 720⟩
      ∧ mapScanRegion 1280 720 ⟨0, 0, 360, 640⟩ ⟨0, 0, 360, 640⟩ ≠ ⟨0, 0, 1280, 720⟩ := by
  have h : mapScanRegion 1280 720 ⟨0, 0, 360, 640⟩ ⟨0, 0, 360, 640⟩ = ⟨438, 0, 405, 720⟩ := by
    rw [mapScanRegion_wide 1280 720 ⟨0, 0, 360, 640⟩ ⟨0, 0, 360, 640⟩ (by norm_num)]
    dsimp only
    congr 1 <;> (apply jsRound_eq <;> push_cast <;> norm_num)
  refine ⟨h, ?_⟩
  rw [h]
  intro hcontra
  have : (438 : ℤ) = 0 := congrArg SensorRect.left hcontra
  omega

/-- C2 witness: a 1280x720 frame shown in a 640x360 display box (equal
16:9 aspect) maps the full display box to the full frame. -/
theorem c2_full_box_witness :
    mapScanRegion 1280 720 ⟨10, 20, 640, 360⟩ ⟨10, 20, 640, 360⟩
      = ⟨0, 0, (1280 : ℤ), (720 : ℤ)⟩ :=
  c2_full_box_equal_aspect 1280 720 ⟨10, 20, 640, 360⟩
    (by norm_num) (by norm_num) (by norm_num) (by norm_num) (by norm_num)

/-! ### Claim C9 -/

/-- C9: exactly one capture may be in flight: a `capture` action while the
machine is `capturing` or `processing` is ignored (the [CAPTURE] button is
only rendered in `ready`), so two rapid capture actions from `ready`
behave exactly like one and start exactly one processing cycle. -/
theorem c9_single_capture_in_flight :
    (∀ s, s = ScanStatus.capturing ∨ s = ScanStatus.processing →
        scanStep s ScanEvent.capture = s)
      ∧ (∀ b, runScan .ready [.capture, .capture, .frameCaptured, .ocrDone b]
            = runScan .ready [.capture, .frameCaptured, .ocrDone b]
          ∧ (runScan .ready [.capture, .capture, .frameCaptured, .ocrDone b]).2 = 1) := by
  constructor
  · rintro s (rfl | rfl) <;> rfl
  · intro b
    cases b <;> exact ⟨rfl, rfl⟩

/-- C9 witness: the no-op of `capture` in `capturing`, and the
single-processing-cycle count for a rapid double capture. -/
theorem c9_single_capture_witness :
    scanStep ScanStatus.capturing ScanEvent.capture = ScanStatus.capturing
      ∧ (runScan .ready [.capture, .capture, .frameCaptured, .ocrDone true]).2 = 1 :=
  ⟨c9_single_capture_in_flight.1 ScanStatus.capturing (Or.inl rfl),
   (c9_single_capture_in_flight.2 true).2⟩

/-! ### OCR post-processing (`hooks/useOCR.ts`) -/

/-- The maximal digit runs of a character list (JS `rawText.match(/\d+/g)`),
accumulator-based: `acc` holds the current run reversed. -/
def digitRunsAux : List Char → List Char → List String
  | [], acc => if acc.isEmpty then [] else [String.mk acc.reverse]
  | c :: rest, acc =>
    if c.isDigit then digitRunsAux rest (c :: acc)
    else if acc.isEmpty then digitRunsAux rest []
    else String.mk acc.reverse :: digitRunsAux rest []

/-- All maximal digit runs of a string, in order. -/
def digitRuns (s : String) : List String :=
  digitRunsAux s.toList []

/-- The `numbers.reduce(...)` step of `useOCR.ts`: longest run wins, strict
comparison, so the first of equal-length runs is kept; initial value `""`. -/
def bestNumber (s : String) : String :=
  (digitRuns s).foldl (fun best current =>
    if current.length > best.length then current else best) ""

/-- The `cleanedText` computation of `useOCR.ts`: non-alphanumeric,
non-hyphen characters become spaces, then whitespace-normalize. -/
def cleanedText (s : String) : String :=
  String.trim (String.intercalate " "
    (((String.mk (s.toList.map fun c => if c.isAlphanum || c = '-' then c else ' ')).splitOn
        " ").filter fun w => w.length > 0))

/-- The recognized text returned by `useOCR.ts`:
`bestNumber || cleanedText`. -/
def postProcess (raw : String) : String :=
  if bestNumber raw = "" then cleanedText raw else bestNumber raw

example : digitRuns "O 12345 X 678" = ["12345", "678"] := by decide

example : postProcess "O 12345 X 678" = "12345" := by decide

example : postProcess "AB-12" = "12" := by decide

/-! ### Longest-run fold lemmas -/

theorem string_length_pos (s : String) (h : s ≠ "") : 0 < s.length := by
  cases s with
  | mk d =>
    have hd : d ≠ [] := by
      intro hcontra
      apply h
      rw [hcontra]
    show 0 < d.length
    exact List.length_pos.mpr hd

theorem foldBest_le (l : List String) :
    ∀ acc, acc.length ≤ (l.foldl (fun best current =>
        if current.length > best.length then current else best) acc).length
      ∧ ∀ c ∈ l, c.length ≤ (l.foldl (fun best current =>
          if current.length > best.length then current else best) acc).length := by
  induction l with
  | nil =>
    intro acc
    exact ⟨le_refl _, by simp⟩
  | cons c l ih =>
    intro acc
    rw [List.foldl_cons]
    by_cases h : c.length > acc.length
    · rw [if_pos h]
      obtain ⟨h1, h2⟩ := ih c
      refine ⟨le_trans (le_of_lt h) h1, ?_⟩
      intro d hd
      rcases List.mem_cons.mp hd with rfl | hd2
      · exact h1
      · exact h2 d hd2
    · rw [if_neg h]
      obtain ⟨h1, h2⟩ := ih acc
      refine ⟨h1, ?_⟩
      intro d hd
      rcases List.mem_cons.mp hd with rfl | hd2
      · exact le_trans (not_lt.mp h) h1
      · exact h2 d hd2

theorem foldBest_stay (l : List String) :
    ∀ acc, (∀ d ∈ l, d.length ≤ acc.length) →
      l.foldl (fun best current =>
        if current.length > best.length then current else best) acc = acc := by
  induction l with
  | nil => intro acc _; rfl
  | cons c l ih =>
    intro acc hle
    rw [List.foldl_cons, if_neg (not_lt.mpr (hle c (List.mem_cons_self c l)))]
    exact ih acc (fun d hd => hle d (List.mem_cons_of_mem c hd))

theorem foldBest_first (l : List String) :
    ∀ acc, (∃ c ∈ l, acc.length < c.length) →
      acc.length < (l.foldl (fun best current =>
          if current.length > best.length then current else best) acc).length
        ∧ l.find? (fun c => decide ((l.foldl (fun best current =>
            if current.length > best.length then current else best) acc).length ≤ c.length))
            = some (l.foldl (fun best current =>
              if current.length > best.length then current else best) acc) := by
  induction l with
  | nil =>
    intro acc h
    obtain ⟨c, hc, _⟩ := h
    exact absurd hc (List.not_mem_nil c)
  | cons c l ih =>
    intro acc hex
    rw [List.foldl_cons]
    by_cases h : c.length > acc.length
    · rw [if_pos h]
      by_cases hex2 : ∃ d ∈ l, c.length < d.length
      · obtain ⟨g1, g2⟩ := ih c hex2
        refine ⟨lt_trans h g1, ?_⟩
        rw [List.find?_cons_of_neg _ (by simp [not_le.mpr g1]), g2]
      · push_neg at hex2
        have hstay : l.foldl (fun best current =>
            if current.length > best.length then current else best) c = c :=
          foldBest_stay l c (fun d hd => hex2 d hd)
        rw [hstay]
        refine ⟨h, ?_⟩
        rw [List.find?_cons_of_pos _ (by simp)]
    · rw [if_neg h]
      have hex3 : ∃ d ∈ l, acc.length < d.length := by
        obtain ⟨d, hd, hlt⟩ := hex
        rcases List.mem_cons.mp hd with rfl | hd2
        · exact absurd hlt h
        · exact ⟨d, hd2, hlt⟩
      obtain ⟨g1, g2⟩ := ih acc hex3
      refine ⟨g1, ?_⟩
      have hc : c.length < (l.foldl (fun best current =>
          if current.length > best.length then current else best) acc).length :=
        lt_of_le_of_lt (not_lt.mp h) g1
      rw [List.find?_cons_of_neg _ (by simp [not_le.mpr hc]), g2]

theorem digitRunsAux_ne_empty (cs : List Char) :
    ∀ acc r, r ∈ digitRunsAux cs acc → r ≠ "" := by
  induction cs with
  | nil =>
    intro acc r hr
    unfold digitRunsAux at hr
    by_cases h : acc.isEmpty = true
    · rw [if_pos h] at hr
      exact absurd hr (List.not_mem_nil r)
    · rw [if_neg h] at hr
      rcases List.mem_cons.mp hr with rfl | hr2
      · intro hcontra
        rw [string_eq_empty_iff, toList_mk, List.reverse_eq_nil_iff] at hcontra
        exact h (by rw [hcontra]; rfl)
      · exact absurd hr2 (List.not_mem_nil r)
  | cons c rest ih =>
    intro acc r hr
    unfold digitRunsAux at hr
    by_cases hd : c.isDigit = true
    · rw [if_pos hd] at hr
      exact ih _ r hr
    · rw [if_neg hd] at hr
      by_cases h : acc.isEmpty = true
      · rw [if_pos h] at hr
        exact ih _ r hr
      · rw [if_neg h] at hr
        rcases List.mem_cons.mp hr with rfl | hr2
        · intro hcontra
          rw [string_eq_empty_iff, toList_mk, List.reverse_eq_nil_iff] at hcontra
          exact h (by rw [hcontra]; rfl)
        · exact ih _ r hr2

/-! ### Claim C6 -/

/-- C6: the recognized text is the longest maximal digit run of the raw
OCR text, the first-occurring run winning length ties (witnessed by
`find?`); with no digit run it falls back to the cleaned text; and
`"O 12345 X 678"` yields `"12345"`. -/
theorem c6_ocr_post_processing (raw : String) :
    (digitRuns raw ≠ [] →
        postProcess raw ∈ digitRuns raw
          ∧ (∀ r ∈ digitRuns raw, r.length ≤ (postProcess raw).length)
          ∧ (digitRuns raw).find?
              (fun r => decide ((postProcess raw).length ≤ r.length))
              = some (postProcess raw))
      ∧ (digitRuns raw = [] → postProcess raw = cleanedText raw)
      ∧ postProcess "O 12345 X 678" = "12345" := by
  refine ⟨?_, ?_, by decide⟩
  · intro hne
    obtain ⟨h, t, heq⟩ := List.exists_cons_of_ne_nil hne
    have hmem : h ∈ digitRuns raw := by
      rw [heq]
      exact List.mem_cons_self h t
    have hpos : 0 < h.length :=
      string_length_pos h (digitRunsAux_ne_empty raw.toList [] h hmem)
    have hex : ∃ c ∈ digitRuns raw, ("" : String).length < c.length :=
      ⟨h, hmem, hpos⟩
    obtain ⟨g1, g2⟩ := foldBest_first (digitRuns raw) "" hex
    have hbest : bestNumber raw ≠ "" := by
      intro hc
      have h0 : (0 : ℕ) < (bestNumber raw).length := g1
      rw [hc] at h0
      exact absurd h0 (by simp)
    have hpp : postProcess raw = bestNumber raw := if_neg hbest
    rw [hpp]
    unfold bestNumber
    exact ⟨List.mem_of_find?_eq_some g2,
      fun r hr => (foldBest_le (digitRuns raw) "").2 r hr, g2⟩
  · intro hnil
    unfold postProcess bestNumber
    rw [hnil]
    rfl

/-- C6 witness: applied to the spec's example input. -/
theorem c6_ocr_post_processing_witness :
    postProcess "O 12345 X 678" ∈ digitRuns "O 12345 X 678"
      ∧ (digitRuns "O 12345 X 678").find?
          (fun r => decide ((postProcess "O 12345 X 678").length ≤ r.length))
          = some (postProcess "O 12345 X 678") := by
  obtain ⟨h1, _, h3⟩ := (c6_ocr_post_processing "O 12345 X 678").1 (by decide)
  exact ⟨h1, h3⟩


/-! ### OCR engine lifecycle (`recognize` in `src/src/hooks/useOCR.ts`) -/

/-- One invocation of the `Tesseract.recognize` convenience API, as called
by `recognize` in `src/src/hooks/useOCR.ts` (the adapter `Scanner.tsx`
imports). The hook holds no worker ref: each call makes the API spin up a
fresh engine instance for that call and terminate it afterwards. The
instance is identified by the next fresh id; no state survives between
calls. Returns (engine used, new fresh-id counter). -/
def tesseractRecognize (nextId : ℕ) : ℕ × ℕ :=
  (nextId, nextId + 1)

/-- A sequence of `n` recognition calls through the adapter: the engine
instance used by each call, and the final fresh-id counter. -/
def runRecognizeCalls (nextId : ℕ) : ℕ → List ℕ × ℕ
  | 0 => ([], nextId)
  | n + 1 =>
    let g := tesseractRecognize nextId
    let r := runRecognizeCalls g.2 n
    (g.1 :: r.1, r.2)

theorem runRecognizeCalls_spec (n : ℕ) :
    ∀ nextId, (runRecognizeCalls nextId n).1 = (List.range n).map (fun i => nextId + i)
      ∧ (runRecognizeCalls nextId n).2 = nextId + n := by
  induction n with
  | zero =>
    intro nextId
    exact ⟨rfl, rfl⟩
  | succ m ih =>
    intro nextId
    rw [show runRecognizeCalls nextId (m + 1) =
        (nextId :: (runRecognizeCalls (nextId + 1) m).1,
         (runRecognizeCalls (nextId + 1) m).2) from rfl]
    obtain ⟨h1, h2⟩ := ih (nextId + 1)
    constructor
    · show nextId :: (runRecognizeCalls (nextId + 1) m).1 = _
      rw [h1, List.range_succ_eq_map, List.map_cons, List.map_map]
      refine congrArg₂ List.cons (by omega) ?_
      apply List.map_congr_left
      intro i _
      simp only [Function.comp_apply]
      omega
    · show (runRecognizeCalls (nextId + 1) m).2 = _
      rw [h2]
      omega

/-! ### Claim C10 -/

/-- C10 (amended): the Text Recognition Adapter the program uses
(`src/src/hooks/useOCR.ts`) holds no memoized engine: every recognition
call invokes `Tesseract.recognize`, which initializes a FRESH engine
instance for that call — `n` calls use `n` pairwise-distinct instances and
advance the fresh-id counter by `n`. The engine is re-initialized on every
capture; nothing is lazily created once and reused, within or across
sessions. -/
theorem c10_engine_per_call (nextId n : ℕ) :
    (runRecognizeCalls nextId n).1 = (List.range n).map (fun i => nextId + i)
      ∧ (runRecognizeCalls nextId n).2 = nextId + n
      ∧ (runRecognizeCalls nextId n).1.Nodup := by
  obtain ⟨h1, h2⟩ := runRecognizeCalls_spec n nextId
  refine ⟨h1, h2, ?_⟩
  rw [h1]
  exact List.Nodup.map (fun a b hab => by omega) (List.nodup_range n)

/-- C10 counterexample: the second recognition call of a session does NOT
reuse the engine instance of the first — two calls use the distinct
instances 0 and 1, so the engine is re-initialized per capture, refuting
the claimed lazy memoization. -/
theorem c10_fresh_engine_counterexample :
    (runRecognizeCalls 0 2).1 = [0, 1] ∧ (0 : ℕ) ≠ 1 := by
  decide
